import Mathlib

/-!
Verification development for the landmark-fingerprint extraction pipeline of
`audfprint.py` (spectrogram peak picking, landmark pairing, hash packing).

The Python source works on numpy arrays of floats and arbitrary-precision
Python integers.  The embedding below models
* 1-D numpy vectors as `List α` (for the vectorized `locmax`) or as total
  functions `ℕ → ℝ` (for threshold envelopes), and 2-D arrays as functions
  `ℕ → ℕ → ℝ` together with explicit `srows`/`scols` dimensions;
* Python integers as `ℤ` (or `ℕ` for indices); Python's
  `v & ((1 << k) - 1)` on arbitrary-precision ints is `v % 2 ^ k`
  (Euclidean remainder, also for negative `v`), `v << s` is `v * 2 ^ s`,
  and the bitwise-or of disjoint shifted fields is their sum;
* floating point arithmetic as exact real arithmetic over `ℝ`.
-/

/-! ### Module-level parameters (audfprint.py lines 15-35) -/

/-- DENSITY controls the density of landmarks found (approx DENSITY per sec). -/
def DENSITY : ℝ := 20.0

/-- OVERSAMP > 1 tries to generate extra landmarks by decaying faster. -/
def OVERSAMP : ℝ := 1

/-- 512 pt FFT @ 11025 Hz window duration. -/
def t_win : ℝ := 0.0464

/-- 50% hop duration. -/
def t_hop : ℝ := 0.0232

/-- Spectrogram enhancement high-pass pole. -/
def hpf_pole : ℝ := 0.98

/-- Masking envelope decay constant,
`(1.0 - 0.01*(DENSITY*np.sqrt(t_hop/0.032)/35))**(1.0/OVERSAMP)`. -/
noncomputable def a_dec : ℝ :=
  (1.0 - 0.01 * (DENSITY * Real.sqrt (t_hop / 0.032) / 35)) ^ ((1.0 : ℝ) / OVERSAMP)

/-- How wide to spread peaks. -/
def f_sd : ℝ := 30.0

/-- Maximum number of local maxima to keep per frame. -/
def maxpksperframe : ℕ := 5

/-- Frequency-difference bound for pairing (`targetdf = 31`). -/
def targetdf : ℤ := 31

/-- Max lookahead in time for pairing (`targetdt = 63`). -/
def targetdt : ℕ := 63

/-- Limit on the number of pairs made from each peak. -/
def maxpairsperpeak : ℕ := 3

/-! ### locmax (audfprint.py lines 37-49) -/

/-- The comparison vector of `locmax`:
`nbr = np.greater_equal(np.r_[x, x[-1]-1], np.r_[x[0], x])`.
Here `x[-1]` is the last entry and `x[0]` the first, written with `getD`
(the defaults are never read for the nonempty vectors numpy accepts). -/
def locmax_nbr {α : Type*} [LinearOrderedRing α] (x : List α) : List Bool :=
  List.zipWith (fun a b => decide (a ≥ b))
    (x ++ [x.getD (x.length - 1) 0 - 1]) (x.getD 0 0 :: x)

/-- Boolean vector of which points in `x` are local maxima:
`maxmask = (nbr[:-1] & ~nbr[1:])`. -/
def locmax {α : Type*} [LinearOrderedRing α] (x : List α) : List Bool :=
  List.zipWith (fun a b => a && !b) (locmax_nbr x).dropLast ((locmax_nbr x).drop 1)

/-- The `indices=True` branch of `locmax` (also `np.nonzero(locmax(...))[0]`):
the indices of the `true` entries of the mask, in ascending order. -/
def locmax_indices {α : Type*} [LinearOrderedRing α] (x : List α) : List ℕ :=
  (List.range (locmax x).length).filter (fun i => (locmax x).getD i false)

/-! ### landmarks2hashes (audfprint.py lines 173-193) -/

/-- Bits of the first frequency bin in the packed hash. -/
def F1bits : ℕ := 8

/-- Bits of the frequency difference field. -/
def DFbits : ℕ := 6

/-- Bits of the time difference field. -/
def DTbits : ℕ := 6

/-- Shift of the `bin1` field: `b1shift = DFbits + DTbits`. -/
def b1shift : ℕ := DFbits + DTbits

/-- Shift of the frequency-difference field: `dfshift = DTbits`. -/
def dfshift : ℕ := DTbits

/-- Hash one landmark `(time, bin1, bin2, dtime)` into `(time, code)`:
`((bin1 & b1mask) << b1shift) | (((bin2 - bin1) & dfmask) << dfshift) | (dtime & dtmask)`,
with `v & ((1 << k) - 1) = v % 2 ^ k`, `v << s = v * 2 ^ s`, and the or of the
disjoint shifted fields written as their sum. -/
def landmark2hash (lm : ℤ × ℤ × ℤ × ℤ) : ℤ × ℤ :=
  (lm.1,
    (lm.2.1 % 2 ^ F1bits) * 2 ^ b1shift
      + ((lm.2.2.1 - lm.2.1) % 2 ^ DFbits) * 2 ^ dfshift
      + lm.2.2.2 % 2 ^ DTbits)

/-- Convert a list of `(time, bin1, bin2, dtime)` landmarks into a list of
`(time, hash)` pairs. -/
def landmarks2hashes (lms : List (ℤ × ℤ × ℤ × ℤ)) : List (ℤ × ℤ) :=
  lms.map landmark2hash

/-- Decoder following the spec's words (§4.6, §8 hash round-trip): mask and
shift the packed code back into the `(bin1, Δfreq, dtime)` fields. -/
def hash_unpack (code : ℤ) : ℤ × ℤ × ℤ :=
  (code / 2 ^ b1shift % 2 ^ F1bits, code / 2 ^ dfshift % 2 ^ DFbits, code % 2 ^ DTbits)

/-! ### Claim C1 -/

/-- C1: for every landmark `(time, bin1, bin2, dtime)` with `0 ≤ bin1 < 256`
and `0 < dtime < 64`, `landmarks2hashes` emits `(time, code)` where `code`
packs, most-significant first, `bin1` masked to 8 bits, `bin2 - bin1` masked
to 6 bits and `dtime` masked to 6 bits (so `0 ≤ code < 2 ^ 20`), and decoding
`code` by masking and shifting recovers the original `bin1`, the original
`dtime`, and a frequency difference congruent to `bin2 - bin1` modulo 64. -/
theorem landmarks2hashes_roundtrip (t bin1 bin2 dtime : ℤ)
    (hb0 : 0 ≤ bin1) (hb1 : bin1 < 256) (hd0 : 0 < dtime) (hd1 : dtime < 64) :
    landmarks2hashes [(t, bin1, bin2, dtime)]
      = [(t, (bin1 % 256) * 2 ^ 12 + ((bin2 - bin1) % 64) * 2 ^ 6 + dtime % 64)]
    ∧ 0 ≤ (landmark2hash (t, bin1, bin2, dtime)).2
    ∧ (landmark2hash (t, bin1, bin2, dtime)).2 < 2 ^ 20
    ∧ hash_unpack (landmark2hash (t, bin1, bin2, dtime)).2
        = (bin1, (bin2 - bin1) % 64, dtime)
    ∧ (hash_unpack (landmark2hash (t, bin1, bin2, dtime)).2).2.1 % 64
        = (bin2 - bin1) % 64 := by
  have e1 : bin1 % 256 = bin1 := Int.emod_eq_of_lt hb0 hb1
  have e2 : dtime % 64 = dtime := Int.emod_eq_of_lt (le_of_lt hd0) hd1
  have r0 : 0 ≤ (bin2 - bin1) % 64 := Int.emod_nonneg _ (by norm_num)
  have r1 : (bin2 - bin1) % 64 < 64 := Int.emod_lt_of_pos _ (by norm_num)
  have hcode : (landmark2hash (t, bin1, bin2, dtime)).2
      = bin1 * 2 ^ 12 + ((bin2 - bin1) % 64) * 2 ^ 6 + dtime := by
    simp only [landmark2hash, F1bits, DFbits, DTbits, b1shift, dfshift]
    norm_num [e1, e2]
  refine ⟨?_, ?_, ?_, ?_, ?_⟩
  · simp only [landmarks2hashes, List.map_cons, List.map_nil, landmark2hash,
      F1bits, DFbits, DTbits, b1shift, dfshift]
    norm_num
  · rw [hcode]; omega
  · rw [hcode]; norm_num; omega
  · simp only [hash_unpack, hcode, F1bits, DFbits, DTbits, b1shift, dfshift]
    norm_num
    refine ⟨?_, ?_, ?_⟩ <;> omega
  · simp only [hash_unpack, hcode, F1bits, DFbits, DTbits, b1shift, dfshift]
    norm_num
    omega

/-- Witness for C1 at the landmark `(0, 10, 12, 3)`. -/
theorem landmarks2hashes_roundtrip_witness :
    ((0 : ℤ) ≤ 10 ∧ (10 : ℤ) < 256 ∧ (0 : ℤ) < 3 ∧ (3 : ℤ) < 64)
    ∧ hash_unpack (landmark2hash (0, 10, 12, 3)).2 = (10, (12 - 10) % 64, 3) :=
  ⟨⟨by norm_num, by norm_num, by norm_num, by norm_num⟩,
    (landmarks2hashes_roundtrip 0 10 12 3 (by norm_num) (by norm_num)
      (by norm_num) (by norm_num)).2.2.2.1⟩


/-! ### Index lemmas for locmax -/

theorem zipWith_getD {β γ δ : Type*} (f : β → γ → δ) (l1 : List β) (l2 : List γ)
    (i : ℕ) (d1 : β) (d2 : γ) (dd : δ) (h1 : i < l1.length) (h2 : i < l2.length) :
    (List.zipWith f l1 l2).getD i dd = f (l1.getD i d1) (l2.getD i d2) := by
  have hz : i < (List.zipWith f l1 l2).length := by
    rw [List.length_zipWith]; exact lt_min h1 h2
  rw [List.getD_eq_getElem _ _ hz, List.getD_eq_getElem _ _ h1,
    List.getD_eq_getElem _ _ h2, List.getElem_zipWith]

theorem getD_dropLast {β : Type*} (l : List β) (i : ℕ) (d : β)
    (h : i < l.dropLast.length) :
    l.dropLast.getD i d = l.getD i d := by
  have hl : i < l.length := by
    rw [List.length_dropLast] at h; omega
  rw [List.getD_eq_getElem _ _ h, List.getD_eq_getElem _ _ hl,
    List.getElem_dropLast]

theorem getD_drop_one {β : Type*} (l : List β) (i : ℕ) (d : β)
    (h : i < (l.drop 1).length) :
    (l.drop 1).getD i d = l.getD (i + 1) d := by
  have hl : 1 + i < l.length := by
    rw [List.length_drop] at h; omega
  rw [List.getD_eq_getElem _ _ h, List.getElem_drop,
    ← List.getD_eq_getElem l d hl, Nat.add_comm]

theorem locmax_nbr_length {α : Type*} [LinearOrderedRing α] (x : List α) :
    (locmax_nbr x).length = x.length + 1 := by
  simp [locmax_nbr]

theorem locmax_length {α : Type*} [LinearOrderedRing α] (x : List α) :
    (locmax x).length = x.length := by
  simp [locmax, locmax_nbr_length]

theorem locmax_getD {α : Type*} [LinearOrderedRing α] (x : List α) (i : ℕ)
    (hi : i < x.length) :
    (locmax x).getD i false
      = ((locmax_nbr x).getD i false && !((locmax_nbr x).getD (i + 1) false)) := by
  have h1 : i < (locmax_nbr x).dropLast.length := by
    rw [List.length_dropLast, locmax_nbr_length]; omega
  have h2 : i < ((locmax_nbr x).drop 1).length := by
    rw [List.length_drop, locmax_nbr_length]; omega
  rw [locmax, zipWith_getD _ _ _ i false false false h1 h2,
    getD_dropLast _ _ _ h1, getD_drop_one _ _ _ h2]

theorem locmax_nbr_getD_zero {α : Type*} [LinearOrderedRing α] (x : List α)
    (hx : 0 < x.length) :
    (locmax_nbr x).getD 0 false = true := by
  have h1 : (0 : ℕ) < (x ++ [x.getD (x.length - 1) 0 - 1]).length := by
    simp
  have h2 : (0 : ℕ) < (x.getD 0 0 :: x).length := by simp
  rw [locmax_nbr, zipWith_getD _ _ _ 0 0 0 false h1 h2]
  rw [List.getD_append _ _ _ _ hx, List.getD_cons_zero]
  simp

theorem locmax_nbr_getD_mid {α : Type*} [LinearOrderedRing α] (x : List α)
    (i : ℕ) (h1 : 1 ≤ i) (h2 : i < x.length) :
    (locmax_nbr x).getD i false = decide (x.getD (i - 1) 0 ≤ x.getD i 0) := by
  obtain ⟨j, rfl⟩ : ∃ j, i = j + 1 := ⟨i - 1, by omega⟩
  have ha : j + 1 < (x ++ [x.getD (x.length - 1) 0 - 1]).length := by
    simp; omega
  have hb : j + 1 < (x.getD 0 0 :: x).length := by simp; omega
  rw [locmax_nbr, zipWith_getD _ _ _ (j + 1) 0 0 false ha hb,
    List.getD_append _ _ _ _ h2, List.getD_cons_succ]
  simp only [Nat.add_sub_cancel, ge_iff_le]

theorem locmax_nbr_getD_last {α : Type*} [LinearOrderedRing α] (x : List α)
    (hx : 0 < x.length) :
    (locmax_nbr x).getD x.length false = false := by
  obtain ⟨m, hm⟩ : ∃ m, x.length = m + 1 := ⟨x.length - 1, by omega⟩
  have ha : x.length < (x ++ [x.getD (x.length - 1) 0 - 1]).length := by
    simp
  have hb : x.length < (x.getD 0 0 :: x).length := by simp
  rw [locmax_nbr, zipWith_getD _ _ _ x.length 0 0 false ha hb]
  have hr : (x ++ [x.getD (x.length - 1) 0 - 1]).getD x.length 0
      = x.getD (x.length - 1) 0 - 1 := by
    rw [List.getD_append_right _ _ _ _ (le_refl x.length), Nat.sub_self,
      List.getD_cons_zero]
  have hc : (x.getD 0 0 :: x).getD x.length 0 = x.getD (x.length - 1) 0 := by
    rw [hm, List.getD_cons_succ]
    simp only [Nat.add_sub_cancel]
  rw [hr, hc]
  simp only [ge_iff_le, decide_eq_false_iff_not, not_le]
  exact sub_lt_self _ one_pos

/-- Rule from the spec (§4.1 LocalMaxima contract) for which index qualifies
as a local maximum: index 0 iff `x[0] > x[1]`; index `i` in `1..n-2` iff
`x[i] ≥ x[i-1]` and `x[i] > x[i+1]`; index `n-1` iff `x[n-1] ≥ x[n-2]`;
for `n = 1` the single point qualifies. -/
def locmax_spec_rule {α : Type*} [LinearOrderedRing α] (x : List α) (i : ℕ) : Prop :=
  if x.length ≤ 1 then True
  else if i = 0 then x.getD 1 0 < x.getD 0 0
  else if i = x.length - 1 then x.getD (x.length - 2) 0 ≤ x.getD (x.length - 1) 0
  else x.getD (i - 1) 0 ≤ x.getD i 0 ∧ x.getD (i + 1) 0 < x.getD i 0

theorem locmax_mark_iff {α : Type*} [LinearOrderedRing α] (x : List α) (i : ℕ)
    (hi : i < x.length) :
    ((locmax x).getD i false = true ↔ locmax_spec_rule x i) := by
  rw [locmax_getD x i hi]
  by_cases h0 : i = 0
  · subst h0
    by_cases h1 : x.length = 1
    · have hlast := locmax_nbr_getD_last x (by omega)
      rw [h1] at hlast
      rw [locmax_nbr_getD_zero x (by omega), show (0 + 1 : ℕ) = 1 from rfl, hlast]
      simp [locmax_spec_rule, h1]
    · rw [locmax_nbr_getD_zero x (by omega), show (0 + 1 : ℕ) = 1 from rfl,
        locmax_nbr_getD_mid x 1 (le_refl 1) (by omega)]
      have hns : ¬ (x.length ≤ 1) := by omega
      simp [locmax_spec_rule, hns, not_le]
  · by_cases hlast : i = x.length - 1
    · have hn2 : 2 ≤ x.length := by omega
      rw [locmax_nbr_getD_mid x i (by omega) hi,
        show i + 1 = x.length from by omega, locmax_nbr_getD_last x (by omega)]
      have hns : ¬ (x.length ≤ 1) := by omega
      have e1 : i - 1 = x.length - 2 := by omega
      rw [e1, hlast]
      simp [locmax_spec_rule, hns, show x.length - 1 ≠ 0 from by omega]
    · have h2 : i + 1 < x.length := by omega
      rw [locmax_nbr_getD_mid x i (by omega) hi,
        locmax_nbr_getD_mid x (i + 1) (by omega) h2]
      have hns : ¬ (x.length ≤ 1) := by omega
      simp [locmax_spec_rule, hns, h0, hlast, not_le, Nat.add_sub_cancel]

theorem locmax_adjacent_false {α : Type*} [LinearOrderedRing α] (x : List α)
    (i : ℕ) :
    ((locmax x).getD i false && (locmax x).getD (i + 1) false) = false := by
  by_cases h : i + 1 < x.length
  · rw [locmax_getD x i (by omega), locmax_getD x (i + 1) h]
    cases hnbr : (locmax_nbr x).getD (i + 1) false <;> simp [hnbr]
  · have hd : (locmax x).getD (i + 1) false = false :=
      List.getD_eq_default _ _ (by rw [locmax_length]; omega)
    rw [hd, Bool.and_false]

/-! ### Claim C3 -/

/-- C3: for every vector `x` of length `n ≥ 1` over a linearly ordered ring
(in particular over ℝ), `locmax` marks exactly the indices satisfying the
boundary-aware rule `locmax_spec_rule` (index 0 iff `x[0] > x[1]`; middle `i`
iff `x[i] ≥ x[i-1]` and `x[i] > x[i+1]`; index `n-1` iff `x[n-1] ≥ x[n-2]`;
for `n = 1` the single index qualifies); in particular `[1,3,2]` yields
exactly `{1}`, a strictly increasing `x` exactly `{n-1}`, a strictly
decreasing `x` exactly `{0}`, and a constant `x` exactly `{n-1}`. -/
theorem locmax_characterization {α : Type*} [LinearOrderedRing α]
    (x : List α) (hx : 1 ≤ x.length) :
    (∀ i, i < x.length → ((locmax x).getD i false = true ↔ locmax_spec_rule x i))
    ∧ (x = [1, 3, 2] → ∀ i, i < x.length → ((locmax x).getD i false = true ↔ i = 1))
    ∧ ((∀ i, i + 1 < x.length → x.getD i 0 < x.getD (i + 1) 0) →
        ∀ i, i < x.length → ((locmax x).getD i false = true ↔ i = x.length - 1))
    ∧ ((∀ i, i + 1 < x.length → x.getD (i + 1) 0 < x.getD i 0) →
        ∀ i, i < x.length → ((locmax x).getD i false = true ↔ i = 0))
    ∧ ((∀ i, i + 1 < x.length → x.getD i 0 = x.getD (i + 1) 0) →
        ∀ i, i < x.length → ((locmax x).getD i false = true ↔ i = x.length - 1)) := by
  refine ⟨fun i hi => locmax_mark_iff x i hi, ?_, ?_, ?_, ?_⟩
  · rintro rfl i hi
    rw [locmax_mark_iff _ i hi]
    simp only [List.length_cons, List.length_nil] at hi
    interval_cases i <;> simp [locmax_spec_rule] <;> norm_num
  · intro hmono i hi
    rw [locmax_mark_iff x i hi]
    by_cases h1 : x.length ≤ 1
    · have hi0 : i = 0 := by omega
      have hl1 : x.length - 1 = 0 := by omega
      simp [locmax_spec_rule, h1, hi0, hl1]
    · by_cases h0 : i = 0
      · subst h0
        have hlt : x.getD 0 0 < x.getD 1 0 := hmono 0 (by omega)
        simp only [locmax_spec_rule, if_neg h1, if_pos rfl]
        constructor
        · intro hcon; exact absurd hcon (lt_asymm hlt)
        · intro h; omega
      · by_cases hlast : i = x.length - 1
        · have hle := (hmono (x.length - 2) (by omega)).le
          have e : x.length - 2 + 1 = x.length - 1 := by omega
          rw [e] at hle
          simp only [locmax_spec_rule, if_neg h1, if_neg h0, if_pos hlast]
          exact ⟨fun _ => hlast, fun _ => hle⟩
        · have hlt := hmono i (by omega)
          simp only [locmax_spec_rule, if_neg h1, if_neg h0, if_neg hlast]
          constructor
          · rintro ⟨-, hcon⟩; exact absurd hcon (lt_asymm hlt)
          · intro h; exact absurd h hlast
  · intro hdec i hi
    rw [locmax_mark_iff x i hi]
    by_cases h1 : x.length ≤ 1
    · have hi0 : i = 0 := by omega
      simp [locmax_spec_rule, h1, hi0]
    · by_cases h0 : i = 0
      · subst h0
        have hlt : x.getD 1 0 < x.getD 0 0 := hdec 0 (by omega)
        simp only [locmax_spec_rule, if_neg h1, if_pos rfl]
        exact ⟨fun _ => trivial, fun _ => hlt⟩
      · by_cases hlast : i = x.length - 1
        · have hlt := hdec (x.length - 2) (by omega)
          have e : x.length - 2 + 1 = x.length - 1 := by omega
          rw [e] at hlt
          simp only [locmax_spec_rule, if_neg h1, if_neg h0, if_pos hlast]
          exact ⟨fun hcon => absurd hcon (not_le.mpr hlt), fun h => absurd h h0⟩
        · have hlt := hdec (i - 1) (by omega)
          have e : i - 1 + 1 = i := by omega
          rw [e] at hlt
          simp only [locmax_spec_rule, if_neg h1, if_neg h0, if_neg hlast]
          constructor
          · rintro ⟨hcon, -⟩; exact absurd hcon (not_le.mpr hlt)
          · intro h; exact absurd h h0
  · intro hconst i hi
    rw [locmax_mark_iff x i hi]
    by_cases h1 : x.length ≤ 1
    · have hi0 : i = 0 := by omega
      have hl1 : x.length - 1 = 0 := by omega
      simp [locmax_spec_rule, h1, hi0, hl1]
    · by_cases h0 : i = 0
      · subst h0
        have heq : x.getD 0 0 = x.getD 1 0 := hconst 0 (by omega)
        simp only [locmax_spec_rule, if_neg h1, if_pos rfl]
        constructor
        · intro hcon; rw [heq] at hcon; exact absurd hcon (lt_irrefl _)
        · intro h; omega
      · by_cases hlast : i = x.length - 1
        · have heq := hconst (x.length - 2) (by omega)
          have e : x.length - 2 + 1 = x.length - 1 := by omega
          rw [e] at heq
          simp only [locmax_spec_rule, if_neg h1, if_neg h0, if_pos hlast]
          exact ⟨fun _ => hlast, fun _ => le_of_eq heq⟩
        · have heq := hconst i (by omega)
          simp only [locmax_spec_rule, if_neg h1, if_neg h0, if_neg hlast]
          constructor
          · rintro ⟨-, hcon⟩; rw [heq] at hcon; exact absurd hcon (lt_irrefl _)
          · intro h; exact absurd h hlast

/-- Witness for C3 at the integer vector `[1, 3, 2]`. -/
theorem locmax_characterization_witness :
    (1 ≤ ([1, 3, 2] : List ℤ).length)
    ∧ ((locmax ([1, 3, 2] : List ℤ)).getD 1 false = true
        ↔ locmax_spec_rule ([1, 3, 2] : List ℤ) 1) :=
  ⟨by norm_num,
    (locmax_characterization ([1, 3, 2] : List ℤ) (by norm_num)).1 1 (by norm_num)⟩

/-! ### spreadpeaks (audfprint.py lines 51-81) -/

/-- Gaussian bump laid down by `spreadpeaks` for the peak `(pos, val)` at
output position `b`: `val*np.exp(-0.5*(((binvals - pos)/float(width))**2))`. -/
noncomputable def spread_bump (width : ℝ) (pos : ℕ) (val : ℝ) (b : ℕ) : ℝ :=
  val * Real.exp (-0.5 * ((((b : ℝ) - (pos : ℝ)) / width) ^ 2))

/-- Generate a vector consisting of the max of a set of Gaussian bumps:
start from `base` (`none` models `base=None`, i.e. `np.zeros(npoints)`), then
for each `(pos, val)` take `Y = np.maximum(Y, bump)`.  Vectors are modelled
as total functions, so the allocation length `npoints` is not needed. -/
noncomputable def spreadpeaks (peaks : List (ℕ × ℝ)) (width : ℝ)
    (base : Option (ℕ → ℝ)) : ℕ → ℝ :=
  let Y := match base with
    | none => fun _ => (0 : ℝ)
    | some B => B
  peaks.foldl (fun Y pv => fun b => max (Y b) (spread_bump width pv.1 pv.2 b)) Y

/-- Create a blurred version of `vector`: spread each local maximum of
`vector` (with its height) over a zero base. -/
noncomputable def spreadpeaksinvector (v : List ℝ) (width : ℝ) : ℕ → ℝ :=
  spreadpeaks ((locmax_indices v).map (fun p => (p, v.getD p 0))) width none

theorem spreadpeaks_foldl_ge (peaks : List (ℕ × ℝ)) (width : ℝ) (Y : ℕ → ℝ)
    (b : ℕ) :
    Y b ≤ (peaks.foldl
      (fun Y pv => fun b => max (Y b) (spread_bump width pv.1 pv.2 b)) Y) b := by
  induction peaks generalizing Y with
  | nil => exact le_refl _
  | cons p l ih =>
    rw [List.foldl_cons]
    refine le_trans ?_ (ih (fun c => max (Y c) (spread_bump width p.1 p.2 c)))
    exact le_max_left _ _

/-! ### Claim C6 -/

/-- C6: for every finite list of `(position, height)` peaks, every width and
every base vector `B`, `spreadpeaks peaks width (some B)` is elementwise at
least `B`; with the base omitted (`none`, i.e. `np.zeros`) it is elementwise
at least zero; and with an empty peak list the result equals the base. -/
theorem spreadpeaks_floor :
    (∀ (peaks : List (ℕ × ℝ)) (width : ℝ) (B : ℕ → ℝ) (b : ℕ),
      B b ≤ spreadpeaks peaks width (some B) b)
    ∧ (∀ (peaks : List (ℕ × ℝ)) (width : ℝ) (b : ℕ),
      (0 : ℝ) ≤ spreadpeaks peaks width none b)
    ∧ (∀ (width : ℝ) (B : ℕ → ℝ), spreadpeaks [] width (some B) = B) :=
  ⟨fun peaks width B b => spreadpeaks_foldl_ge peaks width B b,
    fun peaks width b => spreadpeaks_foldl_ge peaks width (fun _ => 0) b,
    fun _ _ => rfl⟩

/-! ### peaks2landmarks (audfprint.py lines 149-171) -/

/-- Inner double loop of `peaks2landmarks` for one source peak `(col, peak)`:
scan frames `col2` in `xrange(col+1, min(scols, col+targetdt))` and, within
each frame, the bins of `pklist[col2]` in list order, appending the landmark
`(col, peak, peak2, col2-col)` whenever fewer than `maxpairsperpeak` pairs
have been made for this peak and `abs(peak - peak2) < targetdf`. -/
def pairs_for_peak (pklist : List (List ℕ)) (col peak : ℕ) :
    List (ℕ × ℕ × ℕ × ℕ) :=
  ((List.range' (col + 1) (min pklist.length (col + targetdt) - (col + 1))).foldl
    (fun st col2 =>
      (pklist.getD col2 []).foldl
        (fun st2 (peak2 : ℕ) =>
          if st2.1 < maxpairsperpeak ∧ |(peak : ℤ) - (peak2 : ℤ)| < targetdf
          then (st2.1 + 1, st2.2 ++ [(col, peak, peak2, col2 - col)])
          else st2)
        st)
    ((0 : ℕ), ([] : List (ℕ × ℕ × ℕ × ℕ)))).2

/-- Form pairs of peaks into landmarks: `pklist[i]` lists the fft bins
identified as landmark peaks for time frame `i`; returns the list of
`(col, peak, peak2, col2-col)` landmark descriptors, accumulated over all
source peaks in frame order and, within a frame, in bin-list order. -/
def peaks2landmarks (pklist : List (List ℕ)) : List (ℕ × ℕ × ℕ × ℕ) :=
  (List.range pklist.length).foldl
    (fun acc col =>
      (pklist.getD col []).foldl
        (fun acc2 peak => acc2 ++ pairs_for_peak pklist col peak) acc)
    []

/-- Scan-order candidate list for a source peak at frame `col`: the pairs
`(col2, peak2)` visited by the inner loops of `peaks2landmarks`, later frames
in increasing time order and, within each frame, bins in the listed order. -/
def cand_scan (pklist : List (List ℕ)) (col : ℕ) : List (ℕ × ℕ) :=
  (List.range' (col + 1) (min pklist.length (col + targetdt) - (col + 1))).flatMap
    (fun col2 => (pklist.getD col2 []).map (fun p2 => (col2, p2)))

theorem foldl_append_eq_flatMap {β γ : Type*} (l : List β) (g : β → List γ)
    (acc : List γ) :
    l.foldl (fun a x => a ++ g x) acc = acc ++ l.flatMap g := by
  induction l generalizing acc with
  | nil => simp
  | cons x l ih => simp [ih, List.append_assoc]

theorem nested_foldl_flatMap {β γ δ : Type*} (l : List β) (rows : β → List γ)
    (g : β → γ → List δ) (acc : List δ) :
    l.foldl (fun a x => (rows x).foldl (fun a2 y => a2 ++ g x y) a) acc
      = acc ++ l.flatMap (fun x => (rows x).flatMap (g x)) := by
  induction l generalizing acc with
  | nil => simp
  | cons x l ih =>
    rw [List.foldl_cons, ih, foldl_append_eq_flatMap]
    simp [List.append_assoc]

theorem peaks2landmarks_eq_flatMap (pklist : List (List ℕ)) :
    peaks2landmarks pklist
      = (List.range pklist.length).flatMap
          (fun col => (pklist.getD col []).flatMap
            (fun peak => pairs_for_peak pklist col peak)) := by
  have h := nested_foldl_flatMap (List.range pklist.length)
    (fun col => pklist.getD col [])
    (fun col peak => pairs_for_peak pklist col peak) []
  simpa [peaks2landmarks] using h

theorem foldl_flatMap_general {β γ δ : Type*} (l : List β) (g : β → List γ)
    (f : δ → γ → δ) (init : δ) :
    (l.flatMap g).foldl f init = l.foldl (fun a x => (g x).foldl f a) init := by
  induction l generalizing init with
  | nil => simp
  | cons x l ih => simp [List.foldl_append, ih]

theorem pairs_for_peak_eq_foldl_scan (pklist : List (List ℕ)) (col peak : ℕ) :
    pairs_for_peak pklist col peak =
      ((cand_scan pklist col).foldl
        (fun st2 cp =>
          if st2.1 < maxpairsperpeak ∧ |(peak : ℤ) - (cp.2 : ℤ)| < targetdf
          then (st2.1 + 1, st2.2 ++ [(col, peak, cp.2, cp.1 - col)])
          else st2)
        ((0 : ℕ), ([] : List (ℕ × ℕ × ℕ × ℕ)))).2 := by
  unfold pairs_for_peak cand_scan
  rw [foldl_flatMap_general]
  simp only [List.foldl_map]

theorem count_fold_take (peak col : ℕ) (l : List (ℕ × ℕ)) (cnt : ℕ)
    (acc : List (ℕ × ℕ × ℕ × ℕ)) (hc : cnt ≤ maxpairsperpeak) :
    (l.foldl
      (fun st2 cp =>
        if st2.1 < maxpairsperpeak ∧ |(peak : ℤ) - (cp.2 : ℤ)| < targetdf
        then (st2.1 + 1, st2.2 ++ [(col, peak, cp.2, cp.1 - col)])
        else st2)
      (cnt, acc)).2
    = acc ++ (((l.filter
          (fun cp => decide (|(peak : ℤ) - (cp.2 : ℤ)| < targetdf))).take
        (maxpairsperpeak - cnt)).map (fun cp => (col, peak, cp.2, cp.1 - col))) := by
  induction l generalizing cnt acc with
  | nil => simp
  | cons c l ih =>
    rw [List.foldl_cons]
    by_cases hq : |(peak : ℤ) - (c.2 : ℤ)| < targetdf
    · by_cases hcnt : cnt < maxpairsperpeak
      · rw [if_pos ⟨hcnt, hq⟩]
        rw [ih (cnt + 1) _ (by omega)]
        rw [List.filter_cons_of_pos (by simpa using hq)]
        rw [List.take_cons (by omega)]
        rw [show maxpairsperpeak - (cnt + 1) = maxpairsperpeak - cnt - 1 from by omega]
        simp [List.append_assoc]
      · rw [if_neg (fun hcon => hcnt hcon.1)]
        rw [ih cnt acc hc]
        rw [List.filter_cons_of_pos (by simpa using hq)]
        have h0 : maxpairsperpeak - cnt = 0 := by omega
        rw [h0]
        simp
    · rw [if_neg (fun hcon => hq hcon.2)]
      rw [ih cnt acc hc]
      rw [List.filter_cons_of_neg (by simpa using hq)]

theorem pairs_for_peak_eq (pklist : List (List ℕ)) (col peak : ℕ) :
    pairs_for_peak pklist col peak
      = (((cand_scan pklist col).filter
            (fun cp => decide (|(peak : ℤ) - (cp.2 : ℤ)| < targetdf))).take
          maxpairsperpeak).map (fun cp => (col, peak, cp.2, cp.1 - col)) := by
  rw [pairs_for_peak_eq_foldl_scan, count_fold_take peak col _ 0 [] (by omega)]
  simp

/-! ### Claim C7 -/

/-- C7: every landmark `(t, f1, f2, dt)` emitted by `peaks2landmarks`
satisfies `0 < dt < targetdt` (with `targetdt = 63`, hence `dt < 64`) and
`|f1 - f2| < targetdf` (with `targetdf = 31`). -/
theorem landmark_window_law (pklist : List (List ℕ)) (lm : ℕ × ℕ × ℕ × ℕ)
    (hlm : lm ∈ peaks2landmarks pklist) :
    0 < lm.2.2.2 ∧ lm.2.2.2 < targetdt ∧ lm.2.2.2 < 64
    ∧ |(lm.2.1 : ℤ) - (lm.2.2.1 : ℤ)| < targetdf := by
  rw [peaks2landmarks_eq_flatMap] at hlm
  simp only [List.mem_flatMap] at hlm
  obtain ⟨col, hcol, peak, hpeak, hmem⟩ := hlm
  rw [pairs_for_peak_eq] at hmem
  simp only [List.mem_map] at hmem
  obtain ⟨cp, hcp, rfl⟩ := hmem
  have hcp2 : cp ∈ (cand_scan pklist col).filter
      (fun cp => decide (|(peak : ℤ) - (cp.2 : ℤ)| < targetdf)) :=
    List.take_subset _ _ hcp
  rw [List.mem_filter] at hcp2
  obtain ⟨hscan, hqual⟩ := hcp2
  simp only [cand_scan, List.mem_flatMap, List.mem_map] at hscan
  obtain ⟨col2, hcol2, p2, hp2mem, rfl⟩ := hscan
  rw [List.mem_range'] at hcol2
  obtain ⟨i, hilt, hieq⟩ := hcol2
  have hub : col2 < col + targetdt := by
    have h := min_le_right pklist.length (col + targetdt)
    omega
  have ht : targetdt = 63 := rfl
  refine ⟨?_, ?_, ?_, ?_⟩
  · show 0 < col2 - col
    omega
  · show col2 - col < targetdt
    omega
  · show col2 - col < 64
    omega
  · show |(peak : ℤ) - (p2 : ℤ)| < targetdf
    simpa using hqual

/-- Witness for C7 at the peak list `[[10], [12]]`, whose single landmark is
`(0, 10, 12, 1)`. -/
theorem landmark_window_law_witness :
    (((0, 10, 12, 1) : ℕ × ℕ × ℕ × ℕ) ∈ peaks2landmarks [[10], [12]])
    ∧ (0 < (1 : ℕ) ∧ (1 : ℕ) < targetdt ∧ (1 : ℕ) < 64
        ∧ |((10 : ℕ) : ℤ) - ((12 : ℕ) : ℤ)| < targetdf) :=
  ⟨by decide, landmark_window_law [[10], [12]] (0, 10, 12, 1) (by decide)⟩

/-! ### Claim C8 -/

theorem pairs_for_peak_ids (pklist : List (List ℕ)) (col peak : ℕ)
    (lm : ℕ × ℕ × ℕ × ℕ) (h : lm ∈ pairs_for_peak pklist col peak) :
    lm.1 = col ∧ lm.2.1 = peak := by
  rw [pairs_for_peak_eq] at h
  simp only [List.mem_map] at h
  obtain ⟨cp, hcp, rfl⟩ := h
  exact ⟨rfl, rfl⟩

theorem flatMap_eq_single {β γ : Type*} (l : List β) (h : β → List γ) (x : β)
    (hx : x ∈ l) (hnd : l.Nodup) (hother : ∀ y ∈ l, y ≠ x → h y = []) :
    l.flatMap h = h x := by
  induction l with
  | nil => cases hx
  | cons a t ih =>
    rw [List.flatMap_cons]
    rcases List.mem_cons.mp hx with rfl | hxt
    · have ht : t.flatMap h = [] := by
        rw [List.flatMap_eq_nil_iff]
        intro y hy
        exact hother y (List.mem_cons_of_mem _ hy)
          (fun he => (List.nodup_cons.mp hnd).1 (he ▸ hy))
      rw [ht, List.append_nil]
    · have ha : h a = [] :=
        hother a (List.mem_cons_self a t)
          (fun he => (List.nodup_cons.mp hnd).1 (he ▸ hxt))
      rw [ha, List.nil_append]
      exact ih hxt (List.nodup_cons.mp hnd).2
        (fun y hy hyx => hother y (List.mem_cons_of_mem _ hy) hyx)

/-- C8 counterexample: with the peak list `[[5, 5], [5, 5, 5]]` (frame 0 lists
bin 5 twice), the source peak `(0, 5)` is the earlier member of 6 landmarks,
exceeding `maxpairsperpeak = 3`; so the per-peak cap does not hold for every
peak list. -/
theorem pairs_cap_counterexample :
    ((peaks2landmarks [[5, 5], [5, 5, 5]]).filter
        (fun lm => lm.1 == 0 && lm.2.1 == 5)).length = 6
    ∧ ¬ (((peaks2landmarks [[5, 5], [5, 5, 5]]).filter
        (fun lm => lm.1 == 0 && lm.2.1 == 5)).length ≤ maxpairsperpeak) := by
  decide

/-- C8 amended: for every peak list whose per-frame bin lists are strictly
ascending (no duplicate bins within a frame, the form `find_peaks` emits),
each source peak `(col, peak)` appears as the earlier member of at most
`maxpairsperpeak = 3` landmarks of `peaks2landmarks pklist`, and the
landmarks it gets are exactly the first qualifying candidates in scan order
(later frames in increasing time order, bins within a frame in ascending
order). -/
theorem pairs_first_qualifying (pklist : List (List ℕ)) (col peak : ℕ)
    (hsorted : ∀ l ∈ pklist, List.Chain' (· < ·) l)
    (hmem : peak ∈ pklist.getD col []) :
    (peaks2landmarks pklist).filter (fun lm => lm.1 == col && lm.2.1 == peak)
      = (((cand_scan pklist col).filter
            (fun cp => decide (|(peak : ℤ) - (cp.2 : ℤ)| < targetdf))).take
          maxpairsperpeak).map (fun cp => (col, peak, cp.2, cp.1 - col))
    ∧ ((peaks2landmarks pklist).filter
        (fun lm => lm.1 == col && lm.2.1 == peak)).length ≤ maxpairsperpeak := by
  have hcol : col < pklist.length := by
    by_contra hcon
    rw [List.getD_eq_default _ _ (by omega)] at hmem
    exact absurd hmem (List.not_mem_nil _)
  have hrowmem : pklist.getD col [] ∈ pklist := by
    rw [List.getD_eq_getElem _ _ hcol]
    exact List.getElem_mem _
  have hrow : (pklist.getD col []).Nodup := by
    have hch := hsorted (pklist.getD col []) hrowmem
    exact List.Pairwise.imp (fun hab => ne_of_lt hab)
      ((List.chain'_iff_pairwise).mp hch)
  have hblocks :
      (peaks2landmarks pklist).filter
          (fun lm => lm.1 == col && lm.2.1 == peak)
        = pairs_for_peak pklist col peak := by
    rw [peaks2landmarks_eq_flatMap]
    rw [List.filter_flatMap]
    have houter :
        (List.range pklist.length).flatMap
            (fun c => List.filter (fun lm => lm.1 == col && lm.2.1 == peak)
              ((pklist.getD c []).flatMap
                (fun peak2 => pairs_for_peak pklist c peak2)))
          = List.filter (fun lm => lm.1 == col && lm.2.1 == peak)
              ((pklist.getD col []).flatMap
                (fun peak2 => pairs_for_peak pklist col peak2)) := by
      apply flatMap_eq_single _ _ col (List.mem_range.mpr hcol)
        (List.nodup_range _)
      intro c hc hne
      rw [List.filter_eq_nil_iff]
      intro lm hlm
      rw [List.mem_flatMap] at hlm
      obtain ⟨p2, hp2, hlmm⟩ := hlm
      have hid := (pairs_for_peak_ids pklist c p2 lm hlmm).1
      simp [hid, hne]
    rw [houter, List.filter_flatMap]
    have hinner :
        (pklist.getD col []).flatMap
            (fun p2 => List.filter (fun lm => lm.1 == col && lm.2.1 == peak)
              (pairs_for_peak pklist col p2))
          = List.filter (fun lm => lm.1 == col && lm.2.1 == peak)
              (pairs_for_peak pklist col peak) := by
      apply flatMap_eq_single _ _ peak hmem hrow
      intro p2 hp2 hne
      rw [List.filter_eq_nil_iff]
      intro lm hlm
      have hid := (pairs_for_peak_ids pklist col p2 lm hlm).2
      simp [hid, hne]
    rw [hinner, List.filter_eq_self.mpr]
    intro lm hlm
    have hid := pairs_for_peak_ids pklist col peak lm hlm
    simp [hid.1, hid.2]
  constructor
  · rw [hblocks, pairs_for_peak_eq]
  · rw [hblocks, pairs_for_peak_eq, List.length_map, List.length_take]
    exact min_le_left _ _

/-- Witness for the amended C8 at the peak list `[[10], [12]]` and source
peak `(0, 10)`. -/
theorem pairs_first_qualifying_witness :
    (∀ l ∈ ([[10], [12]] : List (List ℕ)), List.Chain' (· < ·) l)
    ∧ ((10 : ℕ) ∈ ([[10], [12]] : List (List ℕ)).getD 0 [])
    ∧ ((peaks2landmarks [[10], [12]]).filter
        (fun lm => lm.1 == 0 && lm.2.1 == 10)).length ≤ maxpairsperpeak := by
  have h1 : ∀ l ∈ ([[10], [12]] : List (List ℕ)), List.Chain' (· < ·) l := by
    intro l hl
    simp only [List.mem_cons, List.not_mem_nil, or_false] at hl
    rcases hl with rfl | rfl <;> simp
  exact ⟨h1, by decide,
    (pairs_first_qualifying [[10], [12]] 0 10 h1 (by decide)).2⟩

/-! ### find_peaks peak picking (audfprint.py lines 100-147)

The spectrogram is modelled as a total function `S : ℕ → ℕ → ℝ` (bin, frame)
together with its dimensions `srows`, `scols` (`(srows, scols) = np.shape(S)`).
The threshold envelope is a function `ℕ → ℝ` and the peak matrix a function
`ℕ → ℕ → Bool`. -/

/-- Raw column `col` of the spectrogram as a vector (`S[:, col]`). -/
def colvals (S : ℕ → ℕ → ℝ) (srows col : ℕ) : List ℝ :=
  (List.range srows).map (fun r => S r col)

/-- Ascending lexicographic order on `(value, position)` pairs, as Python's
`sorted` compares tuples. -/
noncomputable def pairLe (a b : ℝ × ℕ) : Bool :=
  decide (a.1 < b.1 ∨ (a.1 = b.1 ∧ a.2 ≤ b.2))

/-- `sorted(pairs, reverse=True)`: stable sort by descending lexicographic
order on `(value, position)`. -/
noncomputable def sorted_desc (l : List (ℝ × ℕ)) : List (ℝ × ℕ) :=
  l.mergeSort (fun a b => pairLe b a)

/-- Candidate peaks of one forward-pass frame:
`sdiff = np.maximum(0, Scol - sthresh)`,
`sdmaxposs = np.nonzero(locmax(sdiff))[0]`, `pkvals = Scol[sdmaxposs]`,
ranked as `sorted(zip(pkvals, sdmaxposs), reverse=True)`. -/
noncomputable def fwd_candidates (sthresh : ℕ → ℝ) (Scol : ℕ → ℝ)
    (srows : ℕ) : List (ℝ × ℕ) :=
  let sdiff := (List.range srows).map (fun r => max 0 (Scol r - sthresh r))
  sorted_desc ((locmax_indices sdiff).map (fun p => (Scol p, p)))

/-- Body of the forward-pass inner loop over the ranked candidates, with
state `(npeaksfound, sthresh, peaks column)`: accept a candidate only while
`npeaksfound < maxpksperframe` and `Scol[peakpos] > sthresh[peakpos]`;
accepting raises the envelope via `spreadpeaks` and marks the peak. -/
noncomputable def fwd_step (Scol : ℕ → ℝ) (st : ℕ × (ℕ → ℝ) × (ℕ → Bool))
    (vp : ℝ × ℕ) : ℕ × (ℕ → ℝ) × (ℕ → Bool) :=
  if st.1 < maxpksperframe then
    if Scol vp.2 > st.2.1 vp.2 then
      (st.1 + 1, spreadpeaks [(vp.2, Scol vp.2)] f_sd (some st.2.1),
        Function.update st.2.2 vp.2 true)
    else st
  else st

/-- One frame of the forward pass: process the ranked candidates starting
from `npeaksfound = 0` and an all-clear column, then decay the envelope
(`sthresh *= a_dec`). -/
noncomputable def fwd_frame (S : ℕ → ℕ → ℝ) (srows col : ℕ)
    (sthresh : ℕ → ℝ) : (ℕ → ℝ) × (ℕ → Bool) :=
  let res := (fwd_candidates sthresh (fun r => S r col) srows).foldl
    (fwd_step (fun r => S r col)) (0, sthresh, fun _ => false)
  (fun r => res.2.1 r * a_dec, res.2.2)

/-- `np.max` over a list (`0` on the empty list, which numpy rejects). -/
def npmax_list (l : List ℝ) : ℝ :=
  match l with
  | [] => 0
  | x :: xs => xs.foldl max x

/-- Initial forward threshold envelope: the local maxima of the per-row
maximum over the first `min 10 scols` frames, spread at width `f_sd`. -/
noncomputable def init_sthresh (S : ℕ → ℕ → ℝ) (srows scols : ℕ) : ℕ → ℝ :=
  spreadpeaksinvector
    ((List.range srows).map
      (fun r => npmax_list ((List.range (min 10 scols)).map (fun c => S r c))))
    f_sd

/-- Per-frame update of the forward pass state `(sthresh, peak matrix)`:
run `fwd_frame` and write its column into the matrix at `col`. -/
noncomputable def fwd_pass_step (S : ℕ → ℕ → ℝ) (srows : ℕ)
    (st : (ℕ → ℝ) × (ℕ → ℕ → Bool)) (col : ℕ) : (ℕ → ℝ) × (ℕ → ℕ → Bool) :=
  ((fwd_frame S srows col st.1).1,
    fun r c => if c = col then (fwd_frame S srows col st.1).2 r else st.2 r c)

/-- Forward pass of `find_peaks` (lines 106-126): fold the per-frame update
over all frames, starting from the initial envelope and a zero peak matrix. -/
noncomputable def forward_pass (S : ℕ → ℕ → ℝ) (srows scols : ℕ) :
    (ℕ → ℝ) × (ℕ → ℕ → Bool) :=
  (List.range scols).foldl (fwd_pass_step S srows)
    (init_sthresh S srows scols, fun _ _ => false)

/-- Body of the backward-pass inner loop, with state `(sthresh, peaks
column)`: if `val >= sthresh[peakpos]` keep the peak and raise the envelope,
else clear the peak-matrix entry (`peaks[peakpos, col-1] = 0`). -/
noncomputable def back_step (st : (ℕ → ℝ) × (ℕ → Bool)) (vp : ℝ × ℕ) :
    (ℕ → ℝ) × (ℕ → Bool) :=
  if vp.1 ≥ st.1 vp.2 then
    (spreadpeaks [(vp.2, vp.1)] f_sd (some st.1), st.2)
  else
    (st.1, Function.update st.2 vp.2 false)

/-- One frame of the backward pass at frame `col1 = col - 1`:
`pkposs = np.nonzero(peaks[:, col-1])[0]`, `peakvals = S[pkposs, col-1]`,
process `sorted(zip(peakvals, pkposs), reverse=True)` with `back_step`,
then decay the envelope (`sthresh = a_dec*sthresh`). -/
noncomputable def back_frame (S : ℕ → ℕ → ℝ) (srows col1 : ℕ)
    (sthresh : ℕ → ℝ) (pkcol : ℕ → Bool) : (ℕ → ℝ) × (ℕ → Bool) :=
  let pkposs := (List.range srows).filter (fun r => pkcol r)
  let res := (sorted_desc (pkposs.map (fun p => (S p col1, p)))).foldl
    back_step (sthresh, pkcol)
  (fun r => a_dec * res.1 r, res.2)

/-- Per-frame update of the backward pass state `(sthresh, peak matrix)`:
run `back_frame` on column `col1` and write the pruned column back. -/
noncomputable def back_pass_step (S : ℕ → ℕ → ℝ) (srows : ℕ)
    (st : (ℕ → ℝ) × (ℕ → ℕ → Bool)) (col1 : ℕ) : (ℕ → ℝ) × (ℕ → ℕ → Bool) :=
  ((back_frame S srows col1 st.1 (fun r => st.2 r col1)).1,
    fun r c => if c = col1 then (back_frame S srows col1 st.1 (fun r => st.2 r col1)).2 r
      else st.2 r c)

/-- Backward pass of `find_peaks` (lines 128-141): re-initialize the
envelope by spreading the last column (`S[:, -1]`), then visit the frames
`col - 1` for `col = scols, ..., 1` (decreasing) and prune. -/
noncomputable def backward_pass (S : ℕ → ℕ → ℝ) (srows scols : ℕ)
    (peaks : ℕ → ℕ → Bool) : ℕ → ℕ → Bool :=
  ((List.range scols).reverse.foldl (back_pass_step S srows)
    (spreadpeaksinvector (colvals S srows (scols - 1)) f_sd, peaks)).2

/-- Peak list extraction (lines 143-147): for each frame, the ascending
list of bins whose peak-matrix entry survived both passes. -/
noncomputable def find_peaks_core (S : ℕ → ℕ → ℝ) (srows scols : ℕ) :
    List (List ℕ) :=
  (List.range scols).map
    (fun c => (List.range srows).filter
      (fun r => backward_pass S srows scols (forward_pass S srows scols).2 r c))

/-! ### Claim C4 -/

theorem back_step_pk_le (st : (ℕ → ℝ) × (ℕ → Bool)) (vp : ℝ × ℕ) (r : ℕ) :
    (back_step st vp).2 r ≤ st.2 r := by
  unfold back_step
  by_cases h : vp.1 ≥ st.1 vp.2
  · rw [if_pos h]
  · rw [if_neg h]
    dsimp only
    by_cases hr : r = vp.2
    · subst hr
      rw [Function.update_same]
      exact Bool.false_le _
    · rw [Function.update_noteq hr]

theorem foldl_back_step_pk_le (l : List (ℝ × ℕ)) (st : (ℕ → ℝ) × (ℕ → Bool))
    (r : ℕ) :
    (l.foldl back_step st).2 r ≤ st.2 r := by
  induction l generalizing st with
  | nil => exact le_refl _
  | cons vp t ih =>
    rw [List.foldl_cons]
    exact le_trans (ih _) (back_step_pk_le st vp r)

theorem back_frame_pk_le (S : ℕ → ℕ → ℝ) (srows col1 : ℕ) (sthresh : ℕ → ℝ)
    (pkcol : ℕ → Bool) (r : ℕ) :
    (back_frame S srows col1 sthresh pkcol).2 r ≤ pkcol r := by
  unfold back_frame
  exact foldl_back_step_pk_le _ _ r

theorem backward_fold_le (S : ℕ → ℕ → ℝ) (srows : ℕ) (cols : List ℕ)
    (st : (ℕ → ℝ) × (ℕ → ℕ → Bool)) (r c : ℕ) :
    (cols.foldl (back_pass_step S srows) st).2 r c ≤ st.2 r c := by
  induction cols generalizing st with
  | nil => exact le_refl _
  | cons col1 t ih =>
    rw [List.foldl_cons]
    refine le_trans (ih _) ?_
    show (back_pass_step S srows st col1).2 r c ≤ st.2 r c
    unfold back_pass_step
    dsimp only
    by_cases hc : c = col1
    · rw [if_pos hc]
      subst hc
      exact back_frame_pk_le S srows c st.1 (fun r => st.2 r c) r
    · rw [if_neg hc]

/-- C4: for every spectrogram (any dimensions), the peak matrix after the
backward pass of `find_peaks` is, at every bin and frame, a subset of the
forward-pass peak matrix: the backward pass only clears entries and never
sets a peak position the forward pass did not set. -/
theorem backward_subset_forward (S : ℕ → ℕ → ℝ) (srows scols bin frame : ℕ) :
    backward_pass S srows scols (forward_pass S srows scols).2 bin frame
      ≤ (forward_pass S srows scols).2 bin frame := by
  unfold backward_pass
  exact backward_fold_le S srows _ _ bin frame

/-! ### Claim C9 -/

theorem length_filter_update_le (pk : ℕ → Bool) (pos : ℕ) (l : List ℕ)
    (hnd : l.Nodup) :
    (l.filter (fun r => Function.update pk pos true r)).length
      ≤ (l.filter (fun r => pk r)).length + 1 := by
  induction l with
  | nil => simp
  | cons a t ih =>
    have hnd2 := List.nodup_cons.mp hnd
    by_cases ha : a = pos
    · subst ha
      have hft : t.filter (fun r => Function.update pk a true r)
          = t.filter (fun r => pk r) :=
        List.filter_congr (fun r hr => by
          rw [Function.update_noteq (fun he => hnd2.1 (by rw [← he]; exact hr))])
      rw [List.filter_cons, List.filter_cons, hft]
      rw [Function.update_same]
      by_cases hpa : pk a
      · rw [if_pos (by simp), if_pos (by simp [hpa])]
        simp
      · rw [if_pos (by simp), if_neg (by simp [hpa])]
        simp
    · rw [List.filter_cons, List.filter_cons, Function.update_noteq ha]
      by_cases hpa : pk a
      · rw [if_pos (by simp [hpa]), if_pos (by simp [hpa])]
        simpa using ih hnd2.2
      · rw [if_neg (by simp [hpa]), if_neg (by simp [hpa])]
        exact ih hnd2.2

theorem fwd_foldl_count (Scol : ℕ → ℝ) (l : List (ℝ × ℕ)) (srows : ℕ)
    (st : ℕ × (ℕ → ℝ) × (ℕ → Bool))
    (hcnt : ((List.range srows).filter (fun r => st.2.2 r)).length ≤ st.1)
    (hle : st.1 ≤ maxpksperframe) :
    (((List.range srows).filter
        (fun r => (l.foldl (fwd_step Scol) st).2.2 r)).length
      ≤ (l.foldl (fwd_step Scol) st).1)
    ∧ (l.foldl (fwd_step Scol) st).1 ≤ maxpksperframe := by
  induction l generalizing st with
  | nil => exact ⟨hcnt, hle⟩
  | cons vp t ih =>
    rw [List.foldl_cons]
    apply ih
    · unfold fwd_step
      by_cases h1 : st.1 < maxpksperframe
      · rw [if_pos h1]
        by_cases h2 : Scol vp.2 > st.2.1 vp.2
        · rw [if_pos h2]
          dsimp only
          refine le_trans (length_filter_update_le _ _ _ (List.nodup_range _)) ?_
          omega
        · rw [if_neg h2]
          exact hcnt
      · rw [if_neg h1]
        exact hcnt
    · unfold fwd_step
      by_cases h1 : st.1 < maxpksperframe
      · rw [if_pos h1]
        by_cases h2 : Scol vp.2 > st.2.1 vp.2
        · rw [if_pos h2]
          dsimp only
          omega
        · rw [if_neg h2]
          exact hle
      · rw [if_neg h1]
        exact hle

theorem fwd_frame_count (S : ℕ → ℕ → ℝ) (srows col : ℕ) (sthresh : ℕ → ℝ) :
    ((List.range srows).filter
        (fun r => (fwd_frame S srows col sthresh).2 r)).length
      ≤ maxpksperframe := by
  unfold fwd_frame
  dsimp only
  have h := fwd_foldl_count (fun r => S r col)
    (fwd_candidates sthresh (fun r => S r col) srows) srows
    (0, sthresh, fun _ => false) (by simp) (by omega)
  exact le_trans h.1 h.2

theorem forward_fold_count (S : ℕ → ℕ → ℝ) (srows : ℕ) (cols : List ℕ)
    (st : (ℕ → ℝ) × (ℕ → ℕ → Bool))
    (hst : ∀ c, ((List.range srows).filter
      (fun r => st.2 r c)).length ≤ maxpksperframe) (c : ℕ) :
    ((List.range srows).filter
        (fun r => (cols.foldl (fwd_pass_step S srows) st).2 r c)).length
      ≤ maxpksperframe := by
  induction cols generalizing st with
  | nil => exact hst c
  | cons col t ih =>
    rw [List.foldl_cons]
    apply ih
    intro c2
    unfold fwd_pass_step
    dsimp only
    by_cases hc : c2 = col
    · have hcg : (List.range srows).filter
          (fun r => if c2 = col then (fwd_frame S srows col st.1).2 r
            else st.2 r c2)
          = (List.range srows).filter
            (fun r => (fwd_frame S srows col st.1).2 r) :=
        List.filter_congr (fun r _ => by rw [if_pos hc])
      rw [hcg]
      exact fwd_frame_count S srows col st.1
    · have hcg : (List.range srows).filter
          (fun r => if c2 = col then (fwd_frame S srows col st.1).2 r
            else st.2 r c2)
          = (List.range srows).filter (fun r => st.2 r c2) :=
        List.filter_congr (fun r _ => by rw [if_neg hc])
      rw [hcg]
      exact hst c2

/-- C9: in the forward pass of `find_peaks`, for every time frame, the
number of peaks accepted (peak-matrix entries set in that frame's column)
is at most `maxpksperframe = 5`. -/
theorem forward_peaks_per_frame (S : ℕ → ℕ → ℝ) (srows scols frame : ℕ) :
    ((List.range srows).filter
        (fun bin => (forward_pass S srows scols).2 bin frame)).length
      ≤ maxpksperframe := by
  unfold forward_pass
  exact forward_fold_count S srows _ _ (fun c => by simp) frame

/-! ### Claim C5 -/

theorem foldl_back_step_pk_not_mem (l : List (ℝ × ℕ))
    (st : (ℕ → ℝ) × (ℕ → Bool)) (pos : ℕ) (h : pos ∉ l.map Prod.snd) :
    (l.foldl back_step st).2 pos = st.2 pos := by
  induction l generalizing st with
  | nil => rfl
  | cons vp t ih =>
    rw [List.foldl_cons]
    rw [ih _ (fun hm => h (List.mem_cons_of_mem _ hm))]
    have hne : pos ≠ vp.2 := fun he => h (by simp [he])
    unfold back_step
    by_cases hc : vp.1 ≥ st.1 vp.2
    · rw [if_pos hc]
    · rw [if_neg hc]
      dsimp only
      exact Function.update_noteq hne false st.2

/-- C5 counterexample: in the backward-pass decision rule (`back_step`, the
body of the loop at lines 133-140), a forward-accepted peak whose raw value
exactly equals the current backward envelope is kept (the code tests
`val >= sthresh[peakpos]`), even though it does not strictly exceed the
envelope; so "kept iff strictly exceeds" is false.  Concretely, with
envelope constantly 1, a processed peak `(val, pos) = (1, 0)` stays set
while `1 > 1` fails (this configuration is reached e.g. by the one-bin
spectrogram `S = [[1, 1]]`). -/
theorem back_step_keeps_on_equality :
    ((([((1 : ℝ), 0)]).foldl back_step
        ((fun _ => (1 : ℝ)), (fun _ => true))).2 0 = true)
    ∧ ¬ ((1 : ℝ) >
        (List.foldl back_step ((fun _ => (1 : ℝ)), (fun _ => true))
          ([] : List (ℝ × ℕ))).1 0) := by
  constructor
  · rw [List.foldl_cons, List.foldl_nil]
    unfold back_step
    rw [if_pos (le_refl (1 : ℝ))]
  · rw [List.foldl_nil]
    exact lt_irrefl (1 : ℝ)

theorem back_step_eq_keep (st : (ℕ → ℝ) × (ℕ → Bool)) (val : ℝ) (pos : ℕ)
    (h : st.1 pos ≤ val) :
    back_step st (val, pos) = (spreadpeaks [(pos, val)] f_sd (some st.1), st.2) := by
  unfold back_step
  dsimp only
  rw [if_pos h]

theorem back_step_eq_clear (st : (ℕ → ℝ) × (ℕ → Bool)) (val : ℝ) (pos : ℕ)
    (h : ¬ st.1 pos ≤ val) :
    back_step st (val, pos) = (st.1, Function.update st.2 pos false) := by
  unfold back_step
  dsimp only
  rw [if_neg h]

/-- C5 amended: in the backward pass, processing a frame's forward-accepted
peaks in sequence with `back_step`, a peak `(val, pos)` occurring in the
processed list (positions pairwise distinct, entry initially set) is kept
in the resulting peak column if and only if its raw value is greater than
or equal to (not strictly greater than) the backward envelope current at
its decision point; otherwise its entry is cleared. -/
theorem backward_keep_iff_ge (env : ℕ → ℝ) (pk : ℕ → Bool)
    (pre post : List (ℝ × ℕ)) (val : ℝ) (pos : ℕ)
    (hnd : ((pre ++ (val, pos) :: post).map Prod.snd).Nodup)
    (hpk : pk pos = true) :
    (((pre ++ (val, pos) :: post).foldl back_step (env, pk)).2 pos = true
      ↔ (List.foldl back_step (env, pk) pre).1 pos ≤ val) := by
  have hmap : (pre ++ (val, pos) :: post).map Prod.snd
      = pre.map Prod.snd ++ pos :: post.map Prod.snd := by simp
  rw [hmap] at hnd
  have hnd2 := List.nodup_middle.mp hnd
  have hposnot := (List.nodup_cons.mp hnd2).1
  have hpre_pos : pos ∉ pre.map Prod.snd :=
    fun hm => hposnot (List.mem_append.mpr (Or.inl hm))
  have hpost_pos : pos ∉ post.map Prod.snd :=
    fun hm => hposnot (List.mem_append.mpr (Or.inr hm))
  rw [List.foldl_append, List.foldl_cons]
  have hst1pk : (List.foldl back_step (env, pk) pre).2 pos = true := by
    rw [foldl_back_step_pk_not_mem pre (env, pk) pos hpre_pos]
    exact hpk
  by_cases hge : (List.foldl back_step (env, pk) pre).1 pos ≤ val
  · rw [back_step_eq_keep _ _ _ hge,
      foldl_back_step_pk_not_mem post _ pos hpost_pos]
    simpa [hst1pk] using hge
  · rw [back_step_eq_clear _ _ _ hge,
      foldl_back_step_pk_not_mem post _ pos hpost_pos]
    dsimp only
    rw [Function.update_same]
    simp [hge]

/-- Witness for the amended C5 with the single processed peak `(1, 0)` on
the constant-1 envelope and an all-set peak column. -/
theorem backward_keep_iff_ge_witness :
    (((([] : List (ℝ × ℕ)) ++ ((1 : ℝ), 0) :: ([] : List (ℝ × ℕ))).map
        Prod.snd).Nodup
      ∧ (fun _ => true) 0 = true)
    ∧ (((([] : List (ℝ × ℕ)) ++ ((1 : ℝ), 0) :: ([] : List (ℝ × ℕ))).foldl
          back_step ((fun _ => (1 : ℝ)), (fun _ => true))).2 0 = true
        ↔ (List.foldl back_step ((fun _ => (1 : ℝ)), (fun _ => true))
            ([] : List (ℝ × ℕ))).1 0 ≤ 1) :=
  ⟨⟨by simp, rfl⟩,
    backward_keep_iff_ge (fun _ => 1) (fun _ => true) [] [] 1 0 (by simp) rfl⟩

/-! ### Claim C10 -/

theorem mem_fwd_candidates_positions (sthresh Scol : ℕ → ℝ) (srows i : ℕ)
    (h : i ∈ (fwd_candidates sthresh Scol srows).map Prod.snd) :
    (locmax ((List.range srows).map
        (fun r => max 0 (Scol r - sthresh r)))).getD i false = true := by
  unfold fwd_candidates at h
  dsimp only at h
  obtain ⟨pair, hp, hsnd⟩ := List.mem_map.mp h
  rw [sorted_desc, List.mem_mergeSort] at hp
  obtain ⟨p, hpmem, rfl⟩ := List.mem_map.mp hp
  obtain rfl : p = i := hsnd
  exact (List.mem_filter.mp hpmem).2

/-- C10: `locmax` never marks two adjacent indices (for every vector over a
linearly ordered ring, not both index `i` and index `i+1` are local maxima);
consequently the candidate peaks considered within any single frame of the
forward pass of `find_peaks` are pairwise non-adjacent frequency bins. -/
theorem locmax_no_adjacent {α : Type*} [LinearOrderedRing α] :
    (∀ (x : List α) (i : ℕ),
      ((locmax x).getD i false && (locmax x).getD (i + 1) false) = false)
    ∧ (∀ (sthresh Scol : ℕ → ℝ) (srows i : ℕ),
      (decide (i ∈ (fwd_candidates sthresh Scol srows).map Prod.snd)
        && decide ((i + 1) ∈ (fwd_candidates sthresh Scol srows).map Prod.snd))
        = false) := by
  constructor
  · exact fun x i => locmax_adjacent_false x i
  · intro sthresh Scol srows i
    by_cases h1 : i ∈ (fwd_candidates sthresh Scol srows).map Prod.snd
    · by_cases h2 : (i + 1) ∈ (fwd_candidates sthresh Scol srows).map Prod.snd
      · exfalso
        have m1 := mem_fwd_candidates_positions sthresh Scol srows i h1
        have m2 := mem_fwd_candidates_positions sthresh Scol srows (i + 1) h2
        have := locmax_adjacent_false
          ((List.range srows).map (fun r => max 0 (Scol r - sthresh r))) i
        rw [m1, m2] at this
        simp at this
      · simp [h2]
    · simp [h1]

/-! ### Spectrogram enhancement and ingest (audfprint.py lines 83-98, 197-216) -/

/-- `np.max(S)` over a 2-D array reduces over all entries; on a zero-size
array numpy raises `ValueError: zero-size array to reduction operation
maximum which has no identity`, modelled as `Except.error`. -/
noncomputable def npmax_matrix (S : List (List ℝ)) : Except String ℝ :=
  match S.flatten with
  | [] => Except.error "zero-size array to reduction operation maximum"
  | x :: xs => Except.ok (xs.foldl max x)

/-- Log-compression and mean removal (lines 93-94):
`S = np.log(np.maximum(S, np.max(S)/1e6))`, then `S = S - np.mean(S)`;
fails exactly when the spectrogram is zero-size, at `np.max(S)`. -/
noncomputable def spectro_enhance (S : List (List ℝ)) :
    Except String (List (List ℝ)) :=
  match npmax_matrix S with
  | Except.error e => Except.error e
  | Except.ok m =>
    let logged := S.map (fun row => row.map (fun v => Real.log (max v (m / 1000000))))
    let mu := logged.flatten.sum / (logged.flatten.length : ℝ)
    Except.ok (logged.map (fun row => row.map (fun v => v - mu)))

/-- One row of the onset-emphasis filter (lines 96-98):
`scipy.signal.lfilter([1, -1], [1, -p], row)` computes
`y[n] = x[n] - x[n-1] + p*y[n-1]` with zero initial state; the fold state is
`(previous x, previous y, output so far)`. -/
def hpf_row (p : ℝ) (row : List ℝ) : List ℝ :=
  (row.foldl
    (fun (st : ℝ × ℝ × List ℝ) xn =>
      (xn, xn - st.1 + p * st.2.1, st.2.2 ++ [xn - st.1 + p * st.2.1]))
    (0, 0, [])).2.2

/-- The effective high-pass pole `(hpf_pole)**(1/OVERSAMP)`. -/
noncomputable def hpf_pole_eff : ℝ := hpf_pole ^ ((1 : ℝ) / OVERSAMP)

/-- The stages of `find_peaks` from the raw magnitude spectrogram on
(lines 93-147): log-compress and mean-remove (failing on a zero-size
spectrogram exactly as `np.max` does), apply the high-pass filter along each
row, then run the two peak-picking passes and extract the per-frame peak
lists. -/
noncomputable def find_peaks_from_sgram (Sraw : List (List ℝ)) :
    Except String (List (List ℕ)) :=
  match spectro_enhance Sraw with
  | Except.error e => Except.error e
  | Except.ok S1 =>
    let S2 := S1.map (hpf_row hpf_pole_eff)
    Except.ok (find_peaks_core (fun r c => (S2.getD r []).getD c 0)
      S2.length (S2.headI).length)

/-- `ingest` (lines 197-216) after audio decoding: on a decoded sample
sequence `d` at sample rate `sr`, compute
`hashes = landmarks2hashes(peaks2landmarks(find_peaks(d, sr)))` and return
them with the duration `len(d)/float(sr)`.  The windowed magnitude STFT
(`librosa.stft`, external to the core) is passed in as the collaborator
`stft`. -/
noncomputable def ingest_hashes (stft : List ℝ → List (List ℝ)) (d : List ℝ)
    (sr : ℝ) : Except String (List (ℤ × ℤ) × ℝ) :=
  match find_peaks_from_sgram (stft d) with
  | Except.error e => Except.error e
  | Except.ok pklist =>
    Except.ok (landmarks2hashes ((peaks2landmarks pklist).map
      (fun lm => ((lm.1 : ℤ), (lm.2.1 : ℤ), (lm.2.2.1 : ℤ), (lm.2.2.2 : ℤ)))),
      (d.length : ℝ) / sr)

/-- Modelled from the spec: the windowed magnitude STFT (§4.3 step 2,
`librosa.stft`) is an external collaborator whose code is not part of the
core; only its output shape on the empty sample sequence matters here.
Zero samples contain no complete analysis frame, so the spectrogram of the
empty sample sequence has zero time frames. -/
def stft_model_empty : List (List ℝ) := []

/-! ### Claim C2 -/

/-- C2 (code behaviour at the claim's input): for an empty decoded sample
sequence, the composed pipeline raises instead of returning an empty hash
list and a zero duration.  Whatever the external STFT does on zero samples,
it cannot produce a complete analysis frame, so the spectrogram has zero
time frames (the hypothesis `hstft` records this), and the log-compression
step `np.max(S)` at line 93 is then a reduction over a zero-size array,
which numpy rejects with a `ValueError`. -/
theorem ingest_empty_input_errors (stft : List ℝ → List (List ℝ)) (sr : ℝ)
    (hstft : (stft []).flatten = []) :
    ingest_hashes stft [] sr
      = Except.error "zero-size array to reduction operation maximum" := by
  unfold ingest_hashes find_peaks_from_sgram spectro_enhance npmax_matrix
  rw [hstft]

/-- Witness for C2 with the spec-modelled STFT of the empty sample
sequence. -/
theorem ingest_empty_input_errors_witness :
    (((fun _ => stft_model_empty) ([] : List ℝ)).flatten = ([] : List ℝ))
    ∧ ingest_hashes (fun _ => stft_model_empty) [] 11025
      = Except.error "zero-size array to reduction operation maximum" :=
  ⟨rfl, ingest_empty_input_errors (fun _ => stft_model_empty) 11025 rfl⟩
